import Mathlib

/-!
Verification of the pykeen model-definition code: the SimplE knowledge-graph
embedding model (src/poem/models/unimodal/simple.py) and the LiteralE
combination modules (src/pykeen/models/multimodal/combinations.py).

Tensors are embedded as rational-valued lists: a vector is a `List ℚ` and a
2-dimensional tensor (an embedding table, or a batch of embedding rows) is a
`List (List ℚ)`.  Embedding lookup with an out-of-range index is a framework
error, embedded as `Option`.  Methods that only read module state are embedded
as pure functions of the module value; the state-transformer wrappers
(`callOwa` etc.) make the absence of mutation explicit.
-/

namespace PykeenSpec

/-- Pointwise sum of two equal-length vectors, embedding `a + b` on tensors. -/
def tensorAdd1 (a b : List ℚ) : List ℚ :=
  List.zipWith (fun s t => s + t) a b

/-- Row-wise sum of two equal-shape matrices. -/
def tensorAdd2 (A B : List (List ℚ)) : List (List ℚ) :=
  List.zipWith tensorAdd1 A B

/-- Scalar multiple of a vector, embedding `c * t` for a tensor `t`. -/
def scalarMul1 (c : ℚ) (a : List ℚ) : List ℚ :=
  a.map (fun s => c * s)

/-- Scalar multiple of a matrix. -/
def scalarMul2 (c : ℚ) (A : List (List ℚ)) : List (List ℚ) :=
  A.map (scalarMul1 c)

/-- Sum over the last dimension of the elementwise product of three
equal-length rows: embeds `torch.sum(a * b * c, dim=-1)` applied to one row. -/
def dot3 (a b c : List ℚ) : ℚ :=
  (List.zipWith (fun s t => s * t) (List.zipWith (fun s t => s * t) a b) c).sum

/-- Row-wise `dot3` on three matrices of the same shape: embeds
`torch.sum(A * B * C, dim=-1)` on batches of rows. -/
def dot3Rows (A B C : List (List ℚ)) : List ℚ :=
  List.zipWith (fun ab c => (List.zipWith (fun s t => s * t) ab c).sum)
    (List.zipWith (fun a b => List.zipWith (fun s t => s * t) a b) A B) C

/-- Embeds `torch.sum(a[:, None, :] * b[:, None, :] * w[None, :, :], dim=-1)`:
rows `a`, `b` are indexed by the batch dimension, `w` by the broadcast entity
dimension, so entry `[i][e]` is `dot3 (a i) (b i) (w e)`. -/
def bcastSumBBW (a b w : List (List ℚ)) : List (List ℚ) :=
  List.zipWith (fun ar br => w.map (fun wr => dot3 ar br wr)) a b

/-- Embeds `torch.sum(w[None, :, :] * b[:, None, :] * c[:, None, :], dim=-1)`:
`w` is indexed by the broadcast entity dimension, `b`, `c` by the batch
dimension, so entry `[i][e]` is `dot3 (w e) (b i) (c i)`. -/
def bcastSumWBB (w b c : List (List ℚ)) : List (List ℚ) :=
  List.zipWith (fun br cr => w.map (fun wr => dot3 wr br cr)) b c

/-- Embedding lookup of a list of indices in a weight table: embeds
`nn.Embedding.__call__` on an index vector.  An out-of-range index is a
framework error, embedded as `none`. -/
def embedLookup (weight : List (List ℚ)) : List ℕ → Option (List (List ℚ))
  | [] => some []
  | i :: is => do
    let row ← weight.get? i
    let rest ← embedLookup weight is
    pure (row :: rest)

/-- Modelled from the spec: `slice_triples` (from `poem.utils`, not in src/)
splits a batch of triples `(head_id, relation_id, tail_id)` into the head,
relation and tail index columns ("Split triple in head, relation, tail"). -/
def slice_triples (batch : List (ℕ × ℕ × ℕ)) : List ℕ × List ℕ × List ℕ :=
  (batch.map (fun x => x.1), batch.map (fun x => x.2.1), batch.map (fun x => x.2.2))

/-- The SimplE module state: the sizes and the four embedding tables.
`entity_embeddings` is created by `BaseModule._init_embeddings`, the other
three tables by `SimplE._init_embeddings`. -/
structure SimplE where
  num_entities : ℕ
  num_relations : ℕ
  embedding_dim : ℕ
  entity_embeddings : List (List ℚ)
  tail_entity_embeddings : List (List ℚ)
  relation_embeddings : List (List ℚ)
  inverse_relation_embeddings : List (List ℚ)

/-- The four embedding tables have the declared row counts. -/
def SimplE.hasShape (M : SimplE) : Prop :=
  M.entity_embeddings.length = M.num_entities ∧
  M.tail_entity_embeddings.length = M.num_entities ∧
  M.relation_embeddings.length = M.num_relations ∧
  M.inverse_relation_embeddings.length = M.num_relations

instance (M : SimplE) : Decidable M.hasShape := by
  unfold SimplE.hasShape; infer_instance

/-- Embeds `SimplE.forward_owa` on a batch of triples. -/
def SimplE.forward_owa (M : SimplE) (batch : List (ℕ × ℕ × ℕ)) : Option (List ℚ) := do
  let (h_ind, r_ind, t_ind) := slice_triples batch
  let hh ← embedLookup M.entity_embeddings h_ind
  let ht ← embedLookup M.entity_embeddings t_ind
  let th ← embedLookup M.tail_entity_embeddings h_ind
  let tt ← embedLookup M.tail_entity_embeddings t_ind
  let r ← embedLookup M.relation_embeddings r_ind
  let r_inv ← embedLookup M.inverse_relation_embeddings r_ind
  let score := dot3Rows hh r tt
  let inverse_score := dot3Rows ht r_inv th
  pure (scalarMul1 (1/2) (tensorAdd1 score inverse_score))

/-- Embeds `SimplE.forward_cwa` on a batch of (head, relation) pairs. -/
def SimplE.forward_cwa (M : SimplE) (batch : List (ℕ × ℕ)) : Option (List (List ℚ)) := do
  let h_ind := batch.map (fun x => x.1)
  let r_ind := batch.map (fun x => x.2)
  let hh ← embedLookup M.entity_embeddings h_ind
  let th ← embedLookup M.tail_entity_embeddings h_ind
  let r ← embedLookup M.relation_embeddings r_ind
  let r_inv ← embedLookup M.inverse_relation_embeddings r_ind
  let ht := M.entity_embeddings
  let tt := M.tail_entity_embeddings
  let score := bcastSumBBW hh r tt
  let inverse_score := bcastSumWBB ht r_inv th
  pure (scalarMul2 (1/2) (tensorAdd2 score inverse_score))

/-- Embeds `SimplE.forward_inverse_cwa` on a batch of (relation, tail) pairs. -/
def SimplE.forward_inverse_cwa (M : SimplE) (batch : List (ℕ × ℕ)) : Option (List (List ℚ)) := do
  let r_ind := batch.map (fun x => x.1)
  let t_ind := batch.map (fun x => x.2)
  let hh := M.entity_embeddings
  let ht ← embedLookup M.entity_embeddings t_ind
  let th := M.tail_entity_embeddings
  let tt ← embedLookup M.tail_entity_embeddings t_ind
  let r ← embedLookup M.relation_embeddings r_ind
  let r_inv ← embedLookup M.inverse_relation_embeddings r_ind
  let score := bcastSumWBB hh r tt
  let inverse_score := bcastSumBBW ht r_inv th
  pure (scalarMul2 (1/2) (tensorAdd2 score inverse_score))

/-- The CP score of a single triple, following the spec text: the sum over
dimensions of `head_embedding(h) * relation_embedding(r) * tail_entity_embedding(t)`. -/
def SimplE.cpScore (M : SimplE) (h r t : ℕ) : ℚ :=
  dot3 (M.entity_embeddings.getD h []) (M.relation_embeddings.getD r [])
    (M.tail_entity_embeddings.getD t [])

/-- The inverse-CP score of a single triple, following the spec text: the sum
over dimensions of
`head_embedding(t) * inverse_relation_embedding(r) * tail_entity_embedding(h)`. -/
def SimplE.inverseCpScore (M : SimplE) (h r t : ℕ) : ℚ :=
  dot3 (M.entity_embeddings.getD t []) (M.inverse_relation_embeddings.getD r [])
    (M.tail_entity_embeddings.getD h [])

/-- The per-triple SimplE score as the spec states it:
`0.5 * (CP-score + inverse-CP-score)`, with no clamping. -/
def SimplE.specScore (M : SimplE) (x : ℕ × ℕ × ℕ) : ℚ :=
  (1/2) * (M.cpScore x.1 x.2.1 x.2.2 + M.inverseCpScore x.1 x.2.1 x.2.2)

/-- The row of scores `forward_cwa` produces for one (head, relation) pair:
one score per entity used as tail. -/
def SimplE.cwaRow (M : SimplE) (p : ℕ × ℕ) : List ℚ :=
  scalarMul1 (1/2) (tensorAdd1
    (M.tail_entity_embeddings.map (fun wr =>
      dot3 (M.entity_embeddings.getD p.1 []) (M.relation_embeddings.getD p.2 []) wr))
    (M.entity_embeddings.map (fun wr =>
      dot3 wr (M.inverse_relation_embeddings.getD p.2 []) (M.tail_entity_embeddings.getD p.1 []))))

/-- The row of scores `forward_inverse_cwa` produces for one (relation, tail)
pair: one score per entity used as head. -/
def SimplE.inverseCwaRow (M : SimplE) (p : ℕ × ℕ) : List ℚ :=
  scalarMul1 (1/2) (tensorAdd1
    (M.entity_embeddings.map (fun wr =>
      dot3 wr (M.relation_embeddings.getD p.1 []) (M.tail_entity_embeddings.getD p.2 [])))
    (M.tail_entity_embeddings.map (fun wr =>
      dot3 (M.entity_embeddings.getD p.2 []) (M.inverse_relation_embeddings.getD p.1 []) wr)))

/-- A call of `forward_owa` as a state transformer on the module: the method
body only reads attributes and returns, so the post-state is the module
itself. -/
def SimplE.callOwa (M : SimplE) (batch : List (ℕ × ℕ × ℕ)) :
    Option (List ℚ) × SimplE :=
  (M.forward_owa batch, M)

/-- A call of `forward_cwa` as a state transformer on the module. -/
def SimplE.callCwa (M : SimplE) (batch : List (ℕ × ℕ)) :
    Option (List (List ℚ)) × SimplE :=
  (M.forward_cwa batch, M)

/-- A call of `forward_inverse_cwa` as a state transformer on the module. -/
def SimplE.callInverseCwa (M : SimplE) (batch : List (ℕ × ℕ)) :
    Option (List (List ℚ)) × SimplE :=
  (M.forward_inverse_cwa batch, M)

/-- Models `nn.Embedding(rows, cols)`: a freshly initialized embedding table of
the declared shape; the random initial values are abstracted as the explicit
source `f`. -/
def initTable (f : ℕ → ℕ → ℚ) (rows cols : ℕ) : List (List ℚ) :=
  (List.range rows).map (fun i => (List.range cols).map (fun j => f i j))

/-- Modelled from the spec: `BaseModule._init_embeddings` (poem/models/base.py,
not under src/) creates the `entity_embeddings` table of shape
(num_entities, embedding_dim); per the spec, "embeddings are reinitialized on
construction". -/
def baseInitEntityEmbeddings (num_entities embedding_dim : ℕ)
    (f : ℕ → ℕ → ℚ) : List (List ℚ) :=
  initTable f num_entities embedding_dim

/-- Embeds `SimplE.__init__` together with `SimplE._init_embeddings`: the base
class creates `entity_embeddings`, then the tail-entity table of shape
(num_entities, embedding_dim) and the relation and inverse-relation tables of
shape (num_relations, embedding_dim) are created. -/
def SimplE.construct (num_entities num_relations embedding_dim : ℕ)
    (f_e f_t f_r f_i : ℕ → ℕ → ℚ) : SimplE :=
  { num_entities := num_entities
    num_relations := num_relations
    embedding_dim := embedding_dim
    entity_embeddings := baseInitEntityEmbeddings num_entities embedding_dim f_e
    tail_entity_embeddings := initTable f_t num_entities embedding_dim
    relation_embeddings := initTable f_r num_relations embedding_dim
    inverse_relation_embeddings := initTable f_i num_relations embedding_dim }

/-- A small concrete SimplE model used to instantiate the theorems. -/
def M0 : SimplE :=
  { num_entities := 2
    num_relations := 1
    embedding_dim := 2
    entity_embeddings := [[1, 2], [3, 4]]
    tail_entity_embeddings := [[5, 6], [7, 8]]
    relation_embeddings := [[1, 1]]
    inverse_relation_embeddings := [[2, 0]] }

/-- A linear layer `nn.Linear` with its learned parameters: `weight` has shape
(out_features, in_features), `bias` has length out_features. -/
structure Linear where
  weight : List (List ℚ)
  bias : List ℚ

/-- The dot product of two vectors. -/
def dot (a b : List ℚ) : ℚ :=
  (List.zipWith (fun s t => s * t) a b).sum

/-- The forward pass of `nn.Linear`: output entry `j` is `x ⬝ weight[j] + bias[j]`. -/
def Linear.forward (l : Linear) (x : List ℚ) : List ℚ :=
  List.zipWith (fun w b => dot x w + b) l.weight l.bias

/-- Models `nn.Linear(in_features, out_features)`: a linear layer with freshly
initialized parameters of the declared shapes; the random initial values are
abstracted as the explicit sources `f_w`, `f_b`. -/
def mkLinear (f_w : ℕ → ℕ → ℚ) (f_b : ℕ → ℚ) (in_features out_features : ℕ) : Linear :=
  ⟨initTable f_w out_features in_features, (List.range out_features).map f_b⟩

/-- Models `nn.Dropout(p)` in training mode: element `i` is dropped exactly
when its uniform sample `u i` (drawn from `[0,1)`) falls below `p`, and the
surviving elements are rescaled by `1/(1-p)`; the randomness consumed by the
call is the explicit sample stream `u`. -/
def dropoutForward (p : ℚ) (u : ℕ → ℚ) (x : List ℚ) : List ℚ :=
  x.mapIdx (fun i xi => if u i < p then 0 else xi / (1 - p))

/-- Embeds `DistMultCombination.__init__`: `nn.Sequential` of
`nn.Linear(embedding_dim + num_of_literals, embedding_dim)` and
`nn.Dropout(input_dropout)`, holding the linear parameters and the dropout
probability. -/
structure DistMultCombination where
  linear : Linear
  input_dropout : ℚ

/-- The constructor of `DistMultCombination`. -/
def DistMultCombination.make (embedding_dim num_of_literals : ℕ)
    (input_dropout : ℚ) (f_w : ℕ → ℕ → ℚ) (f_b : ℕ → ℚ) : DistMultCombination :=
  ⟨mkLinear f_w f_b (embedding_dim + num_of_literals) embedding_dim, input_dropout⟩

/-- The forward pass of the `nn.Sequential(linear, dropout)`: the linear layer
is applied first, then dropout, whose mask samples are `u`. -/
def DistMultCombination.forward (m : DistMultCombination) (u : ℕ → ℚ)
    (x : List ℚ) : List ℚ :=
  dropoutForward m.input_dropout u (m.linear.forward x)

/-- Modelled from the spec: `split_complex` (from `pykeen.utils`, not under
src/) splits a complex tensor along its last dimension into its real and
imaginary halves. -/
def split_complex (x : List ℚ) : List ℚ × List ℚ :=
  (x.take (x.length / 2), x.drop (x.length / 2))

/-- Modelled from the spec: `combine_complex` (from `pykeen.utils`, not under
src/) concatenates a real and an imaginary part along the last dimension into
one complex tensor. -/
def combine_complex (x_re x_im : List ℚ) : List ℚ :=
  x_re ++ x_im

/-- The `ComplexCombination` module: the two sub-modules (as the functions
their forward passes compute) and the stored `embedding_dim` attribute. -/
structure ComplexCombination where
  real : List ℚ → List ℚ
  imag : List ℚ → List ℚ
  embedding_dim : ℕ

/-- Embeds `ComplexCombination.__init__`: stores the sub-modules and sets
`self.embedding_dim = 2 * embedding_dim`. -/
def ComplexCombination.make (real imag : List ℚ → List ℚ)
    (embedding_dim : ℕ) : ComplexCombination :=
  ⟨real, imag, 2 * embedding_dim⟩

/-- Embeds `ComplexCombination.forward`: split the input into the complex part
(at `self.embedding_dim`) and the literals, split the complex part into real
and imaginary halves, apply each sub-module to its half concatenated with the
literals, and recombine. -/
def ComplexCombination.forward (m : ComplexCombination) (x : List ℚ) : List ℚ :=
  let x0 := x.take m.embedding_dim
  let literal := x.drop m.embedding_dim
  let xs := split_complex x0
  let x_re := m.real (xs.1 ++ literal)
  let x_im := m.imag (xs.2 ++ literal)
  combine_complex x_re x_im

/-- Embeds `ComplExLiteralCombination.__init__`: each sub-module is
`nn.Sequential(nn.Dropout(input_dropout), nn.Linear(embedding_dim +
num_of_literals, embedding_dim), torch.nn.Tanh())`.  The framework primitive
`torch.nn.Tanh` is the abstract elementwise function `tanh`; the dropout mask
samples consumed at the forward call are the explicit streams `u_re`, `u_im`;
the random initial linear parameters are the explicit sources `f` arguments. -/
def ComplExLiteralCombination (tanh : ℚ → ℚ) (embedding_dim num_of_literals : ℕ)
    (input_dropout : ℚ) (fw_re : ℕ → ℕ → ℚ) (fb_re : ℕ → ℚ)
    (fw_im : ℕ → ℕ → ℚ) (fb_im : ℕ → ℚ) (u_re u_im : ℕ → ℚ) : ComplexCombination :=
  ComplexCombination.make
    (fun x => ((mkLinear fw_re fb_re (embedding_dim + num_of_literals) embedding_dim).forward
      (dropoutForward input_dropout u_re x)).map tanh)
    (fun x => ((mkLinear fw_im fb_im (embedding_dim + num_of_literals) embedding_dim).forward
      (dropoutForward input_dropout u_im x)).map tanh)
    embedding_dim

lemma get?_eq_some_getD {α : Type} (w : List α) (i : ℕ) (d : α) (hi : i < w.length) :
    w.get? i = some (w.getD i d) := by
  rw [List.getD_eq_getElem?_getD, List.get?_eq_getElem?, List.getElem?_eq_getElem hi]
  rfl

lemma embedLookup_map_col {α : Type} (w : List (List ℚ)) (batch : List α) (f : α → ℕ)
    (h : ∀ x ∈ batch, f x < w.length) :
    embedLookup w (batch.map f) = some (batch.map (fun x => w.getD (f x) [])) := by
  induction batch with
  | nil => rfl
  | cons x xs ih =>
    simp only [List.map_cons, embedLookup]
    rw [get?_eq_some_getD w (f x) [] (h x (List.mem_cons_self x xs)),
      ih (fun y hy => h y (List.mem_cons_of_mem x hy))]
    rfl

theorem SimplE.forward_owa_eq_map (M : SimplE) (batch : List (ℕ × ℕ × ℕ))
    (hS : M.hasShape)
    (hb : ∀ x ∈ batch,
      x.1 < M.num_entities ∧ x.2.1 < M.num_relations ∧ x.2.2 < M.num_entities) :
    M.forward_owa batch = some (batch.map M.specScore) := by
  obtain ⟨hE, hT, hR, hI⟩ := hS
  simp only [SimplE.forward_owa, slice_triples]
  rw [embedLookup_map_col M.entity_embeddings batch (fun x => x.1)
        (fun x hx => by rw [hE]; exact (hb x hx).1),
      embedLookup_map_col M.entity_embeddings batch (fun x => x.2.2)
        (fun x hx => by rw [hE]; exact (hb x hx).2.2),
      embedLookup_map_col M.tail_entity_embeddings batch (fun x => x.1)
        (fun x hx => by rw [hT]; exact (hb x hx).1),
      embedLookup_map_col M.tail_entity_embeddings batch (fun x => x.2.2)
        (fun x hx => by rw [hT]; exact (hb x hx).2.2),
      embedLookup_map_col M.relation_embeddings batch (fun x => x.2.1)
        (fun x hx => by rw [hR]; exact (hb x hx).2.1),
      embedLookup_map_col M.inverse_relation_embeddings batch (fun x => x.2.1)
        (fun x hx => by rw [hI]; exact (hb x hx).2.1)]
  simp only [Option.bind_eq_bind, Option.some_bind, Option.pure_def]
  simp only [dot3Rows, tensorAdd1, scalarMul1, List.zipWith_map_left,
    List.zipWith_map_right, List.zipWith_same, List.map_map]
  rfl

theorem SimplE.forward_cwa_eq_map (M : SimplE) (batch : List (ℕ × ℕ))
    (hS : M.hasShape)
    (hb : ∀ p ∈ batch, p.1 < M.num_entities ∧ p.2 < M.num_relations) :
    M.forward_cwa batch = some (batch.map M.cwaRow) := by
  obtain ⟨hE, hT, hR, hI⟩ := hS
  simp only [SimplE.forward_cwa]
  rw [embedLookup_map_col M.entity_embeddings batch (fun x => x.1)
        (fun p hp => by rw [hE]; exact (hb p hp).1),
      embedLookup_map_col M.tail_entity_embeddings batch (fun x => x.1)
        (fun p hp => by rw [hT]; exact (hb p hp).1),
      embedLookup_map_col M.relation_embeddings batch (fun x => x.2)
        (fun p hp => by rw [hR]; exact (hb p hp).2),
      embedLookup_map_col M.inverse_relation_embeddings batch (fun x => x.2)
        (fun p hp => by rw [hI]; exact (hb p hp).2)]
  simp only [Option.bind_eq_bind, Option.some_bind, Option.pure_def]
  simp only [bcastSumBBW, bcastSumWBB, tensorAdd2, scalarMul2,
    List.zipWith_map_left, List.zipWith_map_right, List.zipWith_same, List.map_map]
  rfl

theorem SimplE.forward_inverse_cwa_eq_map (M : SimplE) (batch : List (ℕ × ℕ))
    (hS : M.hasShape)
    (hb : ∀ p ∈ batch, p.1 < M.num_relations ∧ p.2 < M.num_entities) :
    M.forward_inverse_cwa batch = some (batch.map M.inverseCwaRow) := by
  obtain ⟨hE, hT, hR, hI⟩ := hS
  simp only [SimplE.forward_inverse_cwa]
  rw [embedLookup_map_col M.entity_embeddings batch (fun x => x.2)
        (fun p hp => by rw [hE]; exact (hb p hp).2),
      embedLookup_map_col M.tail_entity_embeddings batch (fun x => x.2)
        (fun p hp => by rw [hT]; exact (hb p hp).2),
      embedLookup_map_col M.relation_embeddings batch (fun x => x.1)
        (fun p hp => by rw [hR]; exact (hb p hp).1),
      embedLookup_map_col M.inverse_relation_embeddings batch (fun x => x.1)
        (fun p hp => by rw [hI]; exact (hb p hp).1)]
  simp only [Option.bind_eq_bind, Option.some_bind, Option.pure_def]
  simp only [bcastSumBBW, bcastSumWBB, tensorAdd2, scalarMul2,
    List.zipWith_map_left, List.zipWith_map_right, List.zipWith_same, List.map_map]
  rfl

lemma getElem?_eq_some_getD {α : Type} (l : List α) (i : ℕ) (d : α) (hi : i < l.length) :
    l[i]? = some (l.getD i d) := by
  rw [List.getElem?_eq_getElem hi, List.getD_eq_getElem l d hi]

lemma getD_map {α β : Type} (f : α → β) (l : List α) (i : ℕ) (hi : i < l.length)
    (d : α) (d2 : β) :
    (l.map f).getD i d2 = f (l.getD i d) := by
  rw [List.getD_eq_getElem?_getD, List.getElem?_map, getElem?_eq_some_getD l i d hi]
  rfl

lemma getD_zipWith {α β γ : Type} (f : α → β → γ) (a : List α) (b : List β) (i : ℕ)
    (ha : i < a.length) (hb : i < b.length) (da : α) (db : β) (dc : γ) :
    (List.zipWith f a b).getD i dc = f (a.getD i da) (b.getD i db) := by
  rw [List.getD_eq_getElem?_getD, List.getElem?_zipWith,
    getElem?_eq_some_getD a i da ha, getElem?_eq_some_getD b i db hb]
  rfl

/-- C1: For every batch of triples (h, r, t) whose indices are in range,
`SimplE.forward_owa` returns, per triple, exactly
`0.5 * (CP-score + inverse-CP-score)` — the CP score summing
`head_embedding(h) * relation_embedding(r) * tail_entity_embedding(t)` over
dimensions and the inverse-CP score summing
`head_embedding(t) * inverse_relation_embedding(r) * tail_entity_embedding(h)` —
with no clamping of the result. -/
theorem C1_forward_owa_per_triple_score (M : SimplE) (batch : List (ℕ × ℕ × ℕ))
    (hS : M.hasShape)
    (hb : ∀ x ∈ batch,
      x.1 < M.num_entities ∧ x.2.1 < M.num_relations ∧ x.2.2 < M.num_entities) :
    M.forward_owa batch =
      some (batch.map (fun x =>
        (1/2) * (M.cpScore x.1 x.2.1 x.2.2 + M.inverseCpScore x.1 x.2.1 x.2.2))) :=
  M.forward_owa_eq_map batch hS hb

/-- Witness for C1 on a concrete model and batch. -/
theorem C1_forward_owa_per_triple_score_witness :
    M0.forward_owa [(0, 0, 1)] =
      some ([((0 : ℕ), (0 : ℕ), (1 : ℕ))].map (fun x =>
        (1/2) * (M0.cpScore x.1 x.2.1 x.2.2 + M0.inverseCpScore x.1 x.2.1 x.2.2))) :=
  C1_forward_owa_per_triple_score M0 [(0, 0, 1)] (by decide) (by decide)

lemma cwaRow_getD (M : SimplE) (p : ℕ × ℕ) (t : ℕ)
    (hE : M.entity_embeddings.length = M.num_entities)
    (hT : M.tail_entity_embeddings.length = M.num_entities)
    (ht : t < M.num_entities) :
    (M.cwaRow p).getD t 0 = M.specScore (p.1, p.2, t) := by
  have h1 : t < (M.tail_entity_embeddings.map (fun wr =>
      dot3 (M.entity_embeddings.getD p.1 []) (M.relation_embeddings.getD p.2 []) wr)).length := by
    rw [List.length_map, hT]; exact ht
  have h2 : t < (M.entity_embeddings.map (fun wr =>
      dot3 wr (M.inverse_relation_embeddings.getD p.2 [])
        (M.tail_entity_embeddings.getD p.1 []))).length := by
    rw [List.length_map, hE]; exact ht
  unfold SimplE.cwaRow scalarMul1
  rw [getD_map _ _ t (by rw [tensorAdd1, List.length_zipWith]; exact lt_min h1 h2) 0 0,
    tensorAdd1, getD_zipWith _ _ _ t h1 h2 0 0 0,
    getD_map _ M.tail_entity_embeddings t (by rw [hT]; exact ht) ([] : List ℚ) 0,
    getD_map _ M.entity_embeddings t (by rw [hE]; exact ht) ([] : List ℚ) 0]
  rfl

lemma inverseCwaRow_getD (M : SimplE) (p : ℕ × ℕ) (h : ℕ)
    (hE : M.entity_embeddings.length = M.num_entities)
    (hT : M.tail_entity_embeddings.length = M.num_entities)
    (hh : h < M.num_entities) :
    (M.inverseCwaRow p).getD h 0 = M.specScore (h, p.1, p.2) := by
  have h1 : h < (M.entity_embeddings.map (fun wr =>
      dot3 wr (M.relation_embeddings.getD p.1 [])
        (M.tail_entity_embeddings.getD p.2 []))).length := by
    rw [List.length_map, hE]; exact hh
  have h2 : h < (M.tail_entity_embeddings.map (fun wr =>
      dot3 (M.entity_embeddings.getD p.2 [])
        (M.inverse_relation_embeddings.getD p.1 []) wr)).length := by
    rw [List.length_map, hT]; exact hh
  unfold SimplE.inverseCwaRow scalarMul1
  rw [getD_map _ _ h (by rw [tensorAdd1, List.length_zipWith]; exact lt_min h1 h2) 0 0,
    tensorAdd1, getD_zipWith _ _ _ h h1 h2 0 0 0,
    getD_map _ M.entity_embeddings h (by rw [hE]; exact hh) ([] : List ℚ) 0,
    getD_map _ M.tail_entity_embeddings h (by rw [hT]; exact hh) ([] : List ℚ) 0]
  rfl

/-- C2: The three scoring modes agree pointwise.  For every (head, relation)
pair in a `forward_cwa` batch (columns 0 and 1) and every entity t used as
tail, entry [i, t] of the returned matrix is exactly the `forward_owa` score of
the single triple (h_i, r_i, t); and for every (relation, tail) pair in a
`forward_inverse_cwa` batch (columns 0 and 1) and every entity h used as head,
entry [i, h] is exactly the `forward_owa` score of (h, r_i, t_i). -/
theorem C2_scoring_modes_agree (M : SimplE) (hS : M.hasShape) :
    (∀ batch : List (ℕ × ℕ),
      (∀ p ∈ batch, p.1 < M.num_entities ∧ p.2 < M.num_relations) →
      ∃ mat, M.forward_cwa batch = some mat ∧
        ∀ i, i < batch.length → ∀ t, t < M.num_entities →
          M.forward_owa [((batch.getD i (0, 0)).1, (batch.getD i (0, 0)).2, t)]
            = some [(mat.getD i []).getD t 0]) ∧
    (∀ batch : List (ℕ × ℕ),
      (∀ p ∈ batch, p.1 < M.num_relations ∧ p.2 < M.num_entities) →
      ∃ mat, M.forward_inverse_cwa batch = some mat ∧
        ∀ i, i < batch.length → ∀ h, h < M.num_entities →
          M.forward_owa [(h, (batch.getD i (0, 0)).1, (batch.getD i (0, 0)).2)]
            = some [(mat.getD i []).getD h 0]) := by
  obtain ⟨hE, hT, hR, hI⟩ := hS
  constructor
  · intro batch hb
    refine ⟨batch.map M.cwaRow, M.forward_cwa_eq_map batch ⟨hE, hT, hR, hI⟩ hb, ?_⟩
    intro i hi t ht
    have hpmem : batch.getD i (0, 0) ∈ batch := by
      rw [List.getD_eq_getElem batch (0, 0) hi]
      exact List.getElem_mem hi
    obtain ⟨hp1, hp2⟩ := hb _ hpmem
    have howa : M.forward_owa [((batch.getD i (0, 0)).1, (batch.getD i (0, 0)).2, t)]
        = some ([((batch.getD i (0, 0)).1, (batch.getD i (0, 0)).2, t)].map M.specScore) := by
      refine M.forward_owa_eq_map _ ⟨hE, hT, hR, hI⟩ ?_
      intro x hx
      rw [List.mem_singleton] at hx
      subst hx
      exact ⟨hp1, hp2, ht⟩
    rw [howa, getD_map M.cwaRow batch i hi (0, 0) [],
      cwaRow_getD M (batch.getD i (0, 0)) t hE hT ht]
    rfl
  · intro batch hb
    refine ⟨batch.map M.inverseCwaRow,
      M.forward_inverse_cwa_eq_map batch ⟨hE, hT, hR, hI⟩ hb, ?_⟩
    intro i hi h hh
    have hpmem : batch.getD i (0, 0) ∈ batch := by
      rw [List.getD_eq_getElem batch (0, 0) hi]
      exact List.getElem_mem hi
    obtain ⟨hp1, hp2⟩ := hb _ hpmem
    have howa : M.forward_owa [(h, (batch.getD i (0, 0)).1, (batch.getD i (0, 0)).2)]
        = some ([(h, (batch.getD i (0, 0)).1, (batch.getD i (0, 0)).2)].map M.specScore) := by
      refine M.forward_owa_eq_map _ ⟨hE, hT, hR, hI⟩ ?_
      intro x hx
      rw [List.mem_singleton] at hx
      subst hx
      exact ⟨hh, hp1, hp2⟩
    rw [howa, getD_map M.inverseCwaRow batch i hi (0, 0) [],
      inverseCwaRow_getD M (batch.getD i (0, 0)) h hE hT hh]
    rfl

/-- Witness for C2 on the concrete model: both scoring modes agree with
`forward_owa` on a one-pair batch. -/
theorem C2_scoring_modes_agree_witness :
    ∃ mat, M0.forward_cwa [(0, 0)] = some mat ∧
      ∀ i, i < ([((0 : ℕ), (0 : ℕ))]).length → ∀ t, t < M0.num_entities →
        M0.forward_owa [(([((0 : ℕ), (0 : ℕ))].getD i (0, 0)).1,
          ([((0 : ℕ), (0 : ℕ))].getD i (0, 0)).2, t)]
          = some [(mat.getD i []).getD t 0] :=
  (C2_scoring_modes_agree M0 (by decide)).1 [(0, 0)] (by decide)

lemma cwaRow_length (M : SimplE) (p : ℕ × ℕ)
    (hE : M.entity_embeddings.length = M.num_entities)
    (hT : M.tail_entity_embeddings.length = M.num_entities) :
    (M.cwaRow p).length = M.num_entities := by
  unfold SimplE.cwaRow scalarMul1 tensorAdd1
  rw [List.length_map, List.length_zipWith, List.length_map, List.length_map,
    hE, hT, min_self]

lemma inverseCwaRow_length (M : SimplE) (p : ℕ × ℕ)
    (hE : M.entity_embeddings.length = M.num_entities)
    (hT : M.tail_entity_embeddings.length = M.num_entities) :
    (M.inverseCwaRow p).length = M.num_entities := by
  unfold SimplE.inverseCwaRow scalarMul1 tensorAdd1
  rw [List.length_map, List.length_zipWith, List.length_map, List.length_map,
    hE, hT, min_self]

/-- C3: Output shapes match batch and entity-set cardinalities: on a batch of n
triples, `forward_owa` returns a vector of n scores; on a batch of n pairs,
`forward_cwa` and `forward_inverse_cwa` each return an n-by-num_entities score
matrix, where num_entities is the number of entities in the model's embedding
tables. -/
theorem C3_output_shapes (M : SimplE) (hS : M.hasShape) :
    (∀ batch : List (ℕ × ℕ × ℕ),
      (∀ x ∈ batch,
        x.1 < M.num_entities ∧ x.2.1 < M.num_relations ∧ x.2.2 < M.num_entities) →
      ∃ scores, M.forward_owa batch = some scores ∧ scores.length = batch.length) ∧
    (∀ batch : List (ℕ × ℕ),
      (∀ p ∈ batch, p.1 < M.num_entities ∧ p.2 < M.num_relations) →
      ∃ mat, M.forward_cwa batch = some mat ∧ mat.length = batch.length ∧
        ∀ row ∈ mat, row.length = M.num_entities) ∧
    (∀ batch : List (ℕ × ℕ),
      (∀ p ∈ batch, p.1 < M.num_relations ∧ p.2 < M.num_entities) →
      ∃ mat, M.forward_inverse_cwa batch = some mat ∧ mat.length = batch.length ∧
        ∀ row ∈ mat, row.length = M.num_entities) := by
  obtain ⟨hE, hT, hR, hI⟩ := hS
  refine ⟨fun batch hb => ?_, fun batch hb => ?_, fun batch hb => ?_⟩
  · exact ⟨batch.map M.specScore, M.forward_owa_eq_map batch ⟨hE, hT, hR, hI⟩ hb,
      List.length_map batch M.specScore⟩
  · refine ⟨batch.map M.cwaRow, M.forward_cwa_eq_map batch ⟨hE, hT, hR, hI⟩ hb,
      List.length_map batch M.cwaRow, ?_⟩
    intro row hrow
    obtain ⟨p, _, rfl⟩ := List.mem_map.1 hrow
    exact cwaRow_length M p hE hT
  · refine ⟨batch.map M.inverseCwaRow,
      M.forward_inverse_cwa_eq_map batch ⟨hE, hT, hR, hI⟩ hb,
      List.length_map batch M.inverseCwaRow, ?_⟩
    intro row hrow
    obtain ⟨p, _, rfl⟩ := List.mem_map.1 hrow
    exact inverseCwaRow_length M p hE hT

/-- Witness for C3 on the concrete model. -/
theorem C3_output_shapes_witness :
    ∃ scores, M0.forward_owa [(0, 0, 1), (1, 0, 0)] = some scores ∧
      scores.length = [((0 : ℕ), (0 : ℕ), (1 : ℕ)), (1, 0, 0)].length :=
  (C3_output_shapes M0 (by decide)).1 [(0, 0, 1), (1, 0, 0)] (by decide)

/-- C6: The scoring operations never mutate the learned parameters: after any
call of `forward_owa`, `forward_cwa` or `forward_inverse_cwa` (embedded as
state transformers on the module), all four embedding tables are unchanged. -/
theorem C6_scoring_preserves_parameters :
    ∀ (M : SimplE) (b3 : List (ℕ × ℕ × ℕ)) (b2 b2i : List (ℕ × ℕ)),
      ((M.callOwa b3).2.entity_embeddings = M.entity_embeddings ∧
        (M.callOwa b3).2.tail_entity_embeddings = M.tail_entity_embeddings ∧
        (M.callOwa b3).2.relation_embeddings = M.relation_embeddings ∧
        (M.callOwa b3).2.inverse_relation_embeddings = M.inverse_relation_embeddings) ∧
      ((M.callCwa b2).2.entity_embeddings = M.entity_embeddings ∧
        (M.callCwa b2).2.tail_entity_embeddings = M.tail_entity_embeddings ∧
        (M.callCwa b2).2.relation_embeddings = M.relation_embeddings ∧
        (M.callCwa b2).2.inverse_relation_embeddings = M.inverse_relation_embeddings) ∧
      ((M.callInverseCwa b2i).2.entity_embeddings = M.entity_embeddings ∧
        (M.callInverseCwa b2i).2.tail_entity_embeddings = M.tail_entity_embeddings ∧
        (M.callInverseCwa b2i).2.relation_embeddings = M.relation_embeddings ∧
        (M.callInverseCwa b2i).2.inverse_relation_embeddings
          = M.inverse_relation_embeddings) :=
  fun _ _ _ _ =>
    ⟨⟨rfl, rfl, rfl, rfl⟩, ⟨rfl, rfl, rfl, rfl⟩, ⟨rfl, rfl, rfl, rfl⟩⟩

/-- C7: For every batch of the documented shape whose entity indices lie in
[0, num_entities) and relation indices in [0, num_relations), each scoring
call succeeds and returns a score tensor; no error is raised or translated in
this code. -/
theorem C7_in_range_calls_succeed (M : SimplE) (hS : M.hasShape) :
    (∀ batch : List (ℕ × ℕ × ℕ),
      (∀ x ∈ batch,
        x.1 < M.num_entities ∧ x.2.1 < M.num_relations ∧ x.2.2 < M.num_entities) →
      (M.forward_owa batch).isSome = true) ∧
    (∀ batch : List (ℕ × ℕ),
      (∀ p ∈ batch, p.1 < M.num_entities ∧ p.2 < M.num_relations) →
      (M.forward_cwa batch).isSome = true) ∧
    (∀ batch : List (ℕ × ℕ),
      (∀ p ∈ batch, p.1 < M.num_relations ∧ p.2 < M.num_entities) →
      (M.forward_inverse_cwa batch).isSome = true) := by
  obtain ⟨hE, hT, hR, hI⟩ := hS
  refine ⟨fun batch hb => ?_, fun batch hb => ?_, fun batch hb => ?_⟩
  · rw [M.forward_owa_eq_map batch ⟨hE, hT, hR, hI⟩ hb]
    exact Option.isSome_some
  · rw [M.forward_cwa_eq_map batch ⟨hE, hT, hR, hI⟩ hb]
    exact Option.isSome_some
  · rw [M.forward_inverse_cwa_eq_map batch ⟨hE, hT, hR, hI⟩ hb]
    exact Option.isSome_some

/-- Witness for C7 on the concrete model. -/
theorem C7_in_range_calls_succeed_witness :
    (M0.forward_cwa [(1, 0)]).isSome = true :=
  (C7_in_range_calls_succeed M0 (by decide)).2.1 [(1, 0)] (by decide)

/-- C9: SimplE scoring is deterministic: for a fixed model state, two calls of
any scoring function on equal input batches return equal score tensors; no
scoring path consumes randomness. -/
theorem C9_scoring_deterministic :
    ∀ (M : SimplE) (b3 c3 : List (ℕ × ℕ × ℕ)) (b2 c2 b2i c2i : List (ℕ × ℕ)),
      (b3 = c3 → M.forward_owa b3 = M.forward_owa c3) ∧
      (b2 = c2 → M.forward_cwa b2 = M.forward_cwa c2) ∧
      (b2i = c2i → M.forward_inverse_cwa b2i = M.forward_inverse_cwa c2i) :=
  fun M b3 c3 b2 c2 b2i c2i =>
    ⟨fun h => by rw [h], fun h => by rw [h], fun h => by rw [h]⟩

/-- Witness for C9 on the concrete model. -/
theorem C9_scoring_deterministic_witness :
    M0.forward_owa [(0, 0, 1)] = M0.forward_owa [(0, 0, 1)] :=
  (C9_scoring_deterministic M0 [(0, 0, 1)] [(0, 0, 1)] [] [] [] []).1 rfl

lemma initTable_length (f : ℕ → ℕ → ℚ) (rows cols : ℕ) :
    (initTable f rows cols).length = rows := by
  rw [initTable, List.length_map, List.length_range]

lemma initTable_row_length (f : ℕ → ℕ → ℚ) (rows cols : ℕ) :
    ∀ row ∈ initTable f rows cols, row.length = cols := by
  intro row hrow
  rw [initTable] at hrow
  obtain ⟨i, _, rfl⟩ := List.mem_map.1 hrow
  rw [List.length_map, List.length_range]

lemma initTable_entry (f : ℕ → ℕ → ℚ) (rows cols i j : ℕ)
    (hi : i < rows) (hj : j < cols) :
    ((initTable f rows cols).getD i []).getD j 0 = f i j := by
  rw [initTable,
    getD_map _ (List.range rows) i (by rw [List.length_range]; exact hi) 0 [],
    List.getD_eq_getElem (List.range rows) 0 (by rw [List.length_range]; exact hi),
    List.getElem_range,
    getD_map _ (List.range cols) j (by rw [List.length_range]; exact hj) 0 0,
    List.getD_eq_getElem (List.range cols) 0 (by rw [List.length_range]; exact hj),
    List.getElem_range]

/-- C8: After construction, the model owns four freshly initialized embedding
tables: entity and tail-entity tables of shape (num_entities, embedding_dim)
and relation and inverse-relation tables of shape (num_relations,
embedding_dim), whose entries are exactly the fresh initialization values; and
no scoring operation replaces them. -/
theorem C8_construction_reinitializes_embeddings
    (nE nR d : ℕ) (f_e f_t f_r f_i : ℕ → ℕ → ℚ) :
    ((SimplE.construct nE nR d f_e f_t f_r f_i).entity_embeddings.length = nE ∧
      (∀ row ∈ (SimplE.construct nE nR d f_e f_t f_r f_i).entity_embeddings,
        row.length = d) ∧
      ∀ i j, i < nE → j < d →
        (((SimplE.construct nE nR d f_e f_t f_r f_i).entity_embeddings.getD i []).getD j 0
          = f_e i j)) ∧
    ((SimplE.construct nE nR d f_e f_t f_r f_i).tail_entity_embeddings.length = nE ∧
      (∀ row ∈ (SimplE.construct nE nR d f_e f_t f_r f_i).tail_entity_embeddings,
        row.length = d) ∧
      ∀ i j, i < nE → j < d →
        (((SimplE.construct nE nR d f_e f_t f_r f_i).tail_entity_embeddings.getD i
          []).getD j 0 = f_t i j)) ∧
    ((SimplE.construct nE nR d f_e f_t f_r f_i).relation_embeddings.length = nR ∧
      (∀ row ∈ (SimplE.construct nE nR d f_e f_t f_r f_i).relation_embeddings,
        row.length = d) ∧
      ∀ i j, i < nR → j < d →
        (((SimplE.construct nE nR d f_e f_t f_r f_i).relation_embeddings.getD i
          []).getD j 0 = f_r i j)) ∧
    ((SimplE.construct nE nR d f_e f_t f_r f_i).inverse_relation_embeddings.length = nR ∧
      (∀ row ∈ (SimplE.construct nE nR d f_e f_t f_r f_i).inverse_relation_embeddings,
        row.length = d) ∧
      ∀ i j, i < nR → j < d →
        (((SimplE.construct nE nR d f_e f_t f_r f_i).inverse_relation_embeddings.getD i
          []).getD j 0 = f_i i j)) ∧
    (∀ (b3 : List (ℕ × ℕ × ℕ)) (b2 b2i : List (ℕ × ℕ)),
      ((SimplE.construct nE nR d f_e f_t f_r f_i).callOwa b3).2
          = SimplE.construct nE nR d f_e f_t f_r f_i ∧
        ((SimplE.construct nE nR d f_e f_t f_r f_i).callCwa b2).2
          = SimplE.construct nE nR d f_e f_t f_r f_i ∧
        ((SimplE.construct nE nR d f_e f_t f_r f_i).callInverseCwa b2i).2
          = SimplE.construct nE nR d f_e f_t f_r f_i) := by
  refine ⟨⟨initTable_length f_e nE d, initTable_row_length f_e nE d, ?_⟩,
    ⟨initTable_length f_t nE d, initTable_row_length f_t nE d, ?_⟩,
    ⟨initTable_length f_r nR d, initTable_row_length f_r nR d, ?_⟩,
    ⟨initTable_length f_i nR d, initTable_row_length f_i nR d, ?_⟩,
    fun _ _ _ => ⟨rfl, rfl, rfl⟩⟩
  · exact fun i j hi hj => initTable_entry f_e nE d i j hi hj
  · exact fun i j hi hj => initTable_entry f_t nE d i j hi hj
  · exact fun i j hi hj => initTable_entry f_r nR d i j hi hj
  · exact fun i j hi hj => initTable_entry f_i nR d i j hi hj

/-- Witness for C8 at a concrete construction. -/
theorem C8_construction_reinitializes_embeddings_witness :
    (SimplE.construct 2 1 2 (fun i j => (i : ℚ) + j) (fun _ _ => 1) (fun _ _ => 2)
      (fun _ _ => 3)).entity_embeddings.length = 2 ∧
    ((SimplE.construct 2 1 2 (fun i j => (i : ℚ) + j) (fun _ _ => 1) (fun _ _ => 2)
      (fun _ _ => 3)).entity_embeddings.getD 1 []).getD 0 0
        = ((1 : ℕ) : ℚ) + ((0 : ℕ) : ℚ) :=
  ⟨(C8_construction_reinitializes_embeddings 2 1 2 (fun i j => (i : ℚ) + j)
      (fun _ _ => 1) (fun _ _ => 2) (fun _ _ => 3)).1.1,
    (C8_construction_reinitializes_embeddings 2 1 2 (fun i j => (i : ℚ) + j)
      (fun _ _ => 1) (fun _ _ => 2) (fun _ _ => 3)).1.2.2 1 0 (by decide) (by decide)⟩

lemma complexCombination_forward_split (re im : List ℚ → List ℚ) (d L : ℕ)
    (x : List ℚ) (hx : x.length = 2 * d + L) :
    (ComplexCombination.make re im d).forward x
      = combine_complex (re (x.take d ++ x.drop (2 * d)))
          (im ((x.drop d).take d ++ x.drop (2 * d))) := by
  simp only [ComplexCombination.make, ComplexCombination.forward, split_complex]
  have hlen : (x.take (2 * d)).length = 2 * d := by
    rw [List.length_take, hx]; omega
  rw [hlen, Nat.mul_div_cancel_left d (by norm_num : 0 < 2), List.take_take,
    min_eq_left (show d ≤ 2 * d by omega), List.drop_take,
    show 2 * d - d = d by omega]

/-- C4: `ComplexCombination.forward` splits its input along the last dimension
into a complex part of size `2 * embedding_dim` and a literal part, splits the
complex part into its real and imaginary halves, applies the real sub-module to
the real half concatenated with the literals and the imaginary sub-module to
the imaginary half concatenated with the same literals, and returns the
recombination of the two results as one complex tensor; for
`ComplExLiteralCombination`, each sub-module is dropout followed by a linear
projection from `embedding_dim + num_of_literals` to `embedding_dim` followed
by tanh. -/
theorem C4_complex_combination_structure :
    (∀ (re im : List ℚ → List ℚ) (d L : ℕ) (x : List ℚ), x.length = 2 * d + L →
      (ComplexCombination.make re im d).forward x
        = combine_complex (re (x.take d ++ x.drop (2 * d)))
            (im ((x.drop d).take d ++ x.drop (2 * d)))) ∧
    (∀ (tanh : ℚ → ℚ) (d L : ℕ) (p : ℚ) (fw_re : ℕ → ℕ → ℚ) (fb_re : ℕ → ℚ)
      (fw_im : ℕ → ℕ → ℚ) (fb_im : ℕ → ℚ) (u_re u_im : ℕ → ℚ) (x : List ℚ),
      x.length = 2 * d + L →
      (ComplExLiteralCombination tanh d L p fw_re fb_re fw_im fb_im u_re u_im).forward x
        = combine_complex
            (((mkLinear fw_re fb_re (d + L) d).forward
              (dropoutForward p u_re (x.take d ++ x.drop (2 * d)))).map tanh)
            (((mkLinear fw_im fb_im (d + L) d).forward
              (dropoutForward p u_im ((x.drop d).take d ++ x.drop (2 * d)))).map tanh)) := by
  refine ⟨complexCombination_forward_split, ?_⟩
  intro tanh d L p fw_re fb_re fw_im fb_im u_re u_im x hx
  exact complexCombination_forward_split
    (fun y => ((mkLinear fw_re fb_re (d + L) d).forward
      (dropoutForward p u_re y)).map tanh)
    (fun y => ((mkLinear fw_im fb_im (d + L) d).forward
      (dropoutForward p u_im y)).map tanh) d L x hx

/-- Witness for C4 at a concrete input. -/
theorem C4_complex_combination_structure_witness :
    (ComplexCombination.make id id 1).forward [0, 0, 0]
      = combine_complex
          (id (([(0 : ℚ), 0, 0]).take 1 ++ ([(0 : ℚ), 0, 0]).drop (2 * 1)))
          (id ((([(0 : ℚ), 0, 0]).drop 1).take 1 ++ ([(0 : ℚ), 0, 0]).drop (2 * 1))) :=
  C4_complex_combination_structure.1 id id 1 1 [0, 0, 0] rfl

/-- C5: `DistMultCombination` applies the linear projection from dimension
`embedding_dim + num_of_literals` to `embedding_dim` first and dropout second,
and on every input whose last dimension is `embedding_dim + num_of_literals`
the output's last dimension is `embedding_dim`. -/
theorem C5_distmult_combination_order_and_shape (d L : ℕ) (p : ℚ)
    (f_w : ℕ → ℕ → ℚ) (f_b : ℕ → ℚ) (u : ℕ → ℚ) (x : List ℚ)
    (_hx : x.length = d + L) :
    (DistMultCombination.make d L p f_w f_b).forward u x
      = dropoutForward p u ((mkLinear f_w f_b (d + L) d).forward x) ∧
    ((DistMultCombination.make d L p f_w f_b).forward u x).length = d := by
  refine ⟨rfl, ?_⟩
  unfold DistMultCombination.forward DistMultCombination.make dropoutForward
    Linear.forward mkLinear
  rw [List.length_mapIdx, List.length_zipWith, initTable_length,
    List.length_map, List.length_range, min_self]

/-- Witness for C5 at a concrete input. -/
theorem C5_distmult_combination_order_and_shape_witness :
    (DistMultCombination.make 1 1 0 (fun _ _ => 1) (fun _ => 0)).forward
        (fun _ => 0) [1, 2]
      = dropoutForward 0 (fun _ => 0)
          ((mkLinear (fun _ _ => 1) (fun _ => 0) (1 + 1) 1).forward [1, 2]) ∧
    ((DistMultCombination.make 1 1 0 (fun _ _ => 1) (fun _ => 0)).forward
        (fun _ => 0) [1, 2]).length = 1 :=
  C5_distmult_combination_order_and_shape 1 1 0 (fun _ _ => 1) (fun _ => 0)
    (fun _ => 0) [1, 2] rfl

lemma dropoutForward_zero (u : ℕ → ℚ) (hu : ∀ i, 0 ≤ u i) (x : List ℚ) :
    dropoutForward 0 u x = x := by
  rw [dropoutForward, List.mapIdx_eq_enum_map]
  have hcong : ∀ pr ∈ x.enum,
      (Function.uncurry fun i xi => if u i < 0 then 0 else xi / (1 - 0)) pr
        = Prod.snd pr := by
    intro pr _
    simp only [Function.uncurry]
    rw [if_neg (not_lt.2 (hu pr.1))]
    norm_num
  rw [List.map_congr_left hcong, List.enum_map_snd]

/-- C10: With the default dropout probability `input_dropout = 0.0` (and the
uniform dropout samples lying in [0,1)), dropout is the identity, so
`DistMultCombination` computes exactly the affine map of its linear layer and
`ComplExLiteralCombination` computes exactly the tanh of the affine map of each
half recombined; both are then deterministic functions of the input, with no
dependence on the sample streams. -/
theorem C10_zero_dropout_affine :
    (∀ (d L : ℕ) (f_w : ℕ → ℕ → ℚ) (f_b : ℕ → ℚ) (u : ℕ → ℚ) (x : List ℚ),
      (∀ i, 0 ≤ u i) →
      (DistMultCombination.make d L 0 f_w f_b).forward u x
        = (mkLinear f_w f_b (d + L) d).forward x) ∧
    (∀ (tanh : ℚ → ℚ) (d L : ℕ) (fw_re : ℕ → ℕ → ℚ) (fb_re : ℕ → ℚ)
      (fw_im : ℕ → ℕ → ℚ) (fb_im : ℕ → ℚ) (u_re u_im : ℕ → ℚ) (x : List ℚ),
      (∀ i, 0 ≤ u_re i) → (∀ i, 0 ≤ u_im i) → x.length = 2 * d + L →
      (ComplExLiteralCombination tanh d L 0 fw_re fb_re fw_im fb_im u_re u_im).forward x
        = combine_complex
            (((mkLinear fw_re fb_re (d + L) d).forward
              (x.take d ++ x.drop (2 * d))).map tanh)
            (((mkLinear fw_im fb_im (d + L) d).forward
              ((x.drop d).take d ++ x.drop (2 * d))).map tanh)) := by
  constructor
  · intro d L f_w f_b u x hu
    unfold DistMultCombination.forward DistMultCombination.make
    exact dropoutForward_zero u hu _
  · intro tanh d L fw_re fb_re fw_im fb_im u_re u_im x hre him hx
    unfold ComplExLiteralCombination
    rw [complexCombination_forward_split _ _ d L x hx]
    rw [dropoutForward_zero u_re hre, dropoutForward_zero u_im him]

/-- Witness for C10 at a concrete input. -/
theorem C10_zero_dropout_affine_witness :
    (DistMultCombination.make 1 1 0 (fun _ _ => 1) (fun _ => 0)).forward
        (fun _ => 0) [1, 2]
      = (mkLinear (fun _ _ => 1) (fun _ => 0) (1 + 1) 1).forward [1, 2] :=
  C10_zero_dropout_affine.1 1 1 (fun _ _ => 1) (fun _ => 0) (fun _ => 0) [1, 2]
    (fun _ => le_refl 0)

end PykeenSpec
